import Mathlib

/-!
Verification of the FileLock secure-container pipeline.

The development shallowly embeds the core modules of the repository:

* `src/src/filelock.py`  — crypto container (`encrypt_file` / `decrypt_file`),
* `src/src/compression.py` — compression container (`compress_file` / `decompress_file`),
* `src/src/main.py` — orchestrator (`secure_file` / `restore_file`).

Bytes are `Fin 256`, byte buffers are `List Byte`, and file paths are
`List Char`.  The external cryptographic and compression library calls
(PBKDF2, AES-CBC, SHA-256, zlib deflate/inflate) are modelled as fields of
an abstract `Prims` structure; their documented behaviour (CBC decryption
inverts CBC encryption, digests are 32 bytes long, inflate inverts deflate)
appears as explicit hypotheses of the theorems.  PKCS#7 padding
(`Crypto.Util.Padding.pad`/`unpad` with block size 16) is modelled
concretely, since the invalid-padding failure path is behaviourally
relevant.  The filesystem is a finite map from paths to byte buffers, and
each file-level operation additionally returns the list of content-level
I/O events it performed.
-/

namespace FileLockVerify

abbrev Byte := Fin 256
abbrev Bytes := List Byte
abbrev Path := List Char

/-- Build a byte from a natural number (mod 256). -/
def byte (n : Nat) : Byte := ⟨n % 256, Nat.mod_lt _ (by omega)⟩

/-- The `".flk"` extension appended by `encrypt_file`. -/
def flk : Path := ['.', 'f', 'l', 'k']

/-- The `".flc"` extension appended by `compress_file`. -/
def flc : Path := ['.', 'f', 'l', 'c']

/-- The `".secured"` suffix named by the specification (§4.3, §6). -/
def securedExt : Path := ['.', 's', 'e', 'c', 'u', 'r', 'e', 'd']

/--
Abstract interface to the external library primitives used by the code:
`Crypto.Protocol.KDF.PBKDF2` (`derive_key`), `Crypto.Cipher.AES` in CBC
mode (`cbc_encrypt`/`cbc_decrypt`, acting on a whole padded buffer under a
key and IV), `hashlib.sha256`, and `zlib` compress/decompress (`deflate` /
`inflate`; `inflate` returns `none` on a malformed stream, modelling
`zlib.error`).
-/
structure Prims where
  derive_key : List Char → Bytes → Bytes
  cbc_encrypt : Bytes → Bytes → Bytes → Bytes
  cbc_decrypt : Bytes → Bytes → Bytes → Bytes
  sha256 : Bytes → Bytes
  deflate : Nat → Bytes → Bytes
  inflate : Bytes → Option Bytes

/-- PKCS#7 padding with block size 16 (`Crypto.Util.Padding.pad`):
append `n` copies of the byte `n`, where `n = 16 - len mod 16`. -/
def pad16 (d : Bytes) : Bytes :=
  d ++ List.replicate (16 - d.length % 16) (byte (16 - d.length % 16))

/-- PKCS#7 unpadding with block size 16 (`Crypto.Util.Padding.unpad`):
reject empty input, input whose length is not a multiple of 16, a final
byte outside `[1,16]`, or a tail that is not `n` copies of the byte `n`;
otherwise strip the `n` padding bytes. -/
def unpad16 (d : Bytes) : Option Bytes :=
  if d.length = 0 then none
  else if d.length % 16 ≠ 0 then none
  else if (d.getLast?.getD (byte 0)).val < 1 then none
  else if (d.getLast?.getD (byte 0)).val > 16 then none
  else if d.drop (d.length - (d.getLast?.getD (byte 0)).val) ≠
      List.replicate (d.getLast?.getD (byte 0)).val
        (byte (d.getLast?.getD (byte 0)).val) then none
  else some (d.take (d.length - (d.getLast?.getD (byte 0)).val))

/-- The crypto container built by `encrypt_file` (src/src/filelock.py):
`salt (16) ‖ iv (16) ‖ sha256(plaintext) (32) ‖ AES-CBC(key, iv, pad(plaintext))`
with `key = PBKDF2(password, salt)`. -/
def encryptBuf (pr : Prims) (password : List Char) (salt iv data : Bytes) : Bytes :=
  salt ++ iv ++ pr.sha256 data ++
    pr.cbc_encrypt (pr.derive_key password salt) iv (pad16 data)

/-- Failure modes of the buffer-level decryption in `decrypt_file`.
`invalidPadding` is the `except ValueError` branch around cipher creation,
`cipher.decrypt` and `unpad` (message "Invalid padding or corrupted
data"); `integrityFailure` is the stored-hash mismatch branch (message
"Integrity check failed - file tampered or wrong password"). -/
inductive DecErr where
  | invalidPadding
  | integrityFailure
deriving DecidableEq

/-- The buffer-level decryption performed by `decrypt_file`
(src/src/filelock.py): slice `salt = data[:16]`, `iv = data[16:32]`,
`stored = data[32:64]`, `ct = data[64:]`; derive the key from the parsed
salt; `AES.new` raises `ValueError` if the IV is not 16 bytes, and
`cipher.decrypt` raises `ValueError` if the ciphertext is not
block-aligned — both are caught by the same handler as an `unpad` failure;
finally compare `sha256` of the unpadded plaintext with the stored hash.
There is no up-front container-length check in the code. -/
def decryptBuf (pr : Prims) (password : List Char) (data : Bytes) : Except DecErr Bytes :=
  let salt := data.take 16
  let iv := (data.drop 16).take 16
  let stored := (data.drop 32).take 32
  let ct := data.drop 64
  let key := pr.derive_key password salt
  if iv.length ≠ 16 then .error .invalidPadding
  else if ct.length % 16 ≠ 0 then .error .invalidPadding
  else
    match unpad16 (pr.cbc_decrypt key iv ct) with
    | none => .error .invalidPadding
    | some q => if pr.sha256 q = stored then .ok q else .error .integrityFailure

/-- Failure modes of the decrypt operation as the specification words it
(§4.1, §7): a distinct `MalformedContainerError` for containers shorter
than the 64-byte fixed header. -/
inductive SpecDecErr where
  | malformedContainer
  | codeErr (e : DecErr)
deriving DecidableEq

/-- Following the spec's words (§4.1): "Parses salt (bytes 0–16), iv
(bytes 16–32), stored_hash (bytes 32–64), ciphertext (bytes 64+). Fails
with `MalformedContainerError` if the container is shorter than 64
bytes."  This refinement comparator rejects short containers up front and
otherwise behaves as the code does. -/
def decryptBufSpec (pr : Prims) (password : List Char) (data : Bytes) :
    Except SpecDecErr Bytes :=
  if data.length < 64 then .error .malformedContainer
  else
    match decryptBuf pr password data with
    | .ok q => .ok q
    | .error e => .error (.codeErr e)

-- Basic facts about the padding model.

theorem pad16_length (d : Bytes) :
    (pad16 d).length = d.length + (16 - d.length % 16) := by
  simp [pad16]

theorem pad16_length_mod (d : Bytes) : (pad16 d).length % 16 = 0 := by
  rw [pad16_length]
  omega

theorem pad16_ne_nil (d : Bytes) : pad16 d ≠ [] := by
  intro h
  have := congrArg List.length h
  rw [pad16_length] at this
  simp at this
  omega

/-- Unpadding inverts padding. -/
theorem unpad16_pad16 (d : Bytes) : unpad16 (pad16 d) = some d := by
  have hlt : d.length % 16 < 16 := Nat.mod_lt _ (by omega)
  have hn1 : 1 ≤ 16 - d.length % 16 := by omega
  have hn16 : 16 - d.length % 16 ≤ 16 := by omega
  have hlen := pad16_length d
  have hmod := pad16_length_mod d
  have hne : (pad16 d).length ≠ 0 := by
    intro h
    exact pad16_ne_nil d (List.length_eq_zero.mp h)
  have hlast : (pad16 d).getLast? = some (byte (16 - d.length % 16)) := by
    unfold pad16
    rw [List.getLast?_append_of_ne_nil]
    · rw [List.getLast?_replicate]
      simp [Nat.sub_ne_zero_of_lt hlt]
    · simp [Nat.sub_ne_zero_of_lt hlt]
  have hval : (byte (16 - d.length % 16)).val = 16 - d.length % 16 := by
    simp [byte]
    omega
  unfold unpad16
  rw [if_neg hne, if_neg (by simp [hmod]), hlast]
  simp only [Option.getD_some, hval]
  rw [if_neg (by omega), if_neg (by omega)]
  have hdrop : (pad16 d).drop ((pad16 d).length - (16 - d.length % 16)) =
      List.replicate (16 - d.length % 16) (byte (16 - d.length % 16)) := by
    unfold pad16
    have : (pad16 d).length - (16 - d.length % 16) = d.length := by
      rw [hlen]; omega
    rw [pad16] at this
    rw [this]
    rw [List.drop_append_of_le_length (le_refl _)]
    simp
  rw [if_neg (by simp [hdrop])]
  congr 1
  have : (pad16 d).length - (16 - d.length % 16) = d.length := by
    rw [hlen]; omega
  rw [this]
  unfold pad16
  rw [List.take_append_of_le_length (le_refl _)]
  simp

/-- If unpadding succeeds then the input was exactly the PKCS#7 padding of
the output: the number of stripped bytes is forced by the block-alignment
check together with the range of the final byte. -/
theorem unpad16_some {y q : Bytes} (h : unpad16 y = some q) : y = pad16 q := by
  unfold unpad16 at h
  set n := (y.getLast?.getD (byte 0)).val with hn
  split_ifs at h with h0 h1 h2 h3 h4
  try simp at h
  have hq : q = y.take (y.length - n) := h.symm
  have hlen0 : y.length ≠ 0 := h0
  have hmod : y.length % 16 = 0 := by omega
  have hn1 : 1 ≤ n := by omega
  have hn16 : n ≤ 16 := by omega
  have hylen : 16 ≤ y.length := by omega
  have hqlen : q.length = y.length - n := by
    rw [hq, List.length_take]
    omega
  have hm : 16 - q.length % 16 = n := by
    rw [hqlen]
    omega
  have hdropeq : y.drop (y.length - n) = List.replicate n (byte n) := by
    by_contra hc
    exact h4 hc
  rw [pad16, hm, ← hdropeq, hq]
  exact (List.take_append_drop _ y).symm

/-- Buffer-level round trip of the crypto container: decrypting the
container that `encrypt_file` builds, with the same password, recovers
the plaintext, given the documented behaviour of the library primitives. -/
theorem decryptBuf_encryptBuf (pr : Prims) (pw : List Char) (salt iv data : Bytes)
    (hsalt : salt.length = 16) (hiv : iv.length = 16)
    (hsha : ∀ x, (pr.sha256 x).length = 32)
    (henc : ∀ k v x, (pr.cbc_encrypt k v x).length = x.length)
    (hdec : ∀ k v x, pr.cbc_decrypt k v (pr.cbc_encrypt k v x) = x) :
    decryptBuf pr pw (encryptBuf pr pw salt iv data) = .ok data := by
  have hassoc : encryptBuf pr pw salt iv data =
      salt ++ (iv ++ (pr.sha256 data ++
        pr.cbc_encrypt (pr.derive_key pw salt) iv (pad16 data))) := by
    simp [encryptBuf]
  set ct := pr.cbc_encrypt (pr.derive_key pw salt) iv (pad16 data) with hct
  have htake16 : (encryptBuf pr pw salt iv data).take 16 = salt := by
    rw [hassoc, ← hsalt, List.take_left]
  have hdrop16 : (encryptBuf pr pw salt iv data).drop 16 =
      iv ++ (pr.sha256 data ++ ct) := by
    rw [hassoc, ← hsalt, List.drop_left]
  have hdrop32 : (encryptBuf pr pw salt iv data).drop 32 = pr.sha256 data ++ ct := by
    have : (32 : Nat) = 16 + 16 := by omega
    rw [this, ← List.drop_drop, hdrop16, ← hiv, List.drop_left]
  have hdrop64 : (encryptBuf pr pw salt iv data).drop 64 = ct := by
    have : (64 : Nat) = 32 + 32 := by omega
    rw [this, ← List.drop_drop, hdrop32, ← hsha data, List.drop_left]
  have hivparse : ((encryptBuf pr pw salt iv data).drop 16).take 16 = iv := by
    rw [hdrop16, ← hiv, List.take_left]
  have hstored : ((encryptBuf pr pw salt iv data).drop 32).take 32 = pr.sha256 data := by
    rw [hdrop32, ← hsha data, List.take_left]
  unfold decryptBuf
  rw [htake16, hivparse, hstored, hdrop64]
  rw [if_neg (by simp [hiv]), if_neg (by rw [hct, henc]; simp [pad16_length_mod])]
  rw [hct, hdec, unpad16_pad16]
  simp

/-! ## Filesystem model

A filesystem is a finite association list from paths to byte contents.
Each file-level operation returns its outcome, the updated filesystem and
the list of content-level I/O events (`open(..).read`, `open(.., "wb")`
writes, `os.remove`) it performed, in order.  `os.path.exists` checks are
not I/O events on file contents. -/

/-- Content-level I/O events. -/
inductive Ev where
  | read (p : Path)
  | write (p : Path)
  | remove (p : Path)
deriving DecidableEq

abbrev FS := List (Path × Bytes)

def fsLookup : FS → Path → Option Bytes
  | [], _ => none
  | (q, d) :: fs, p => if q = p then some d else fsLookup fs p

/-- `os.path.exists`. -/
def fsExists (fs : FS) (p : Path) : Bool := (fsLookup fs p).isSome

/-- `os.remove`. -/
def fsRemove (fs : FS) (p : Path) : FS := fs.filter (fun e => decide (e.1 ≠ p))

/-- `open(p, "wb")` followed by a full write: creates or overwrites. -/
def fsWrite (fs : FS) (p : Path) (d : Bytes) : FS := (p, d) :: fsRemove fs p

/-- Python's `s.endswith(t)` for a four-character suffix `t`. -/
def endsWith4 (p s : Path) : Prop := p.drop (p.length - 4) = s

instance (p s : Path) : Decidable (endsWith4 p s) := by
  unfold endsWith4
  infer_instance

/-- Python's `file_path.replace(".flk", "")`: remove every occurrence of
the substring `".flk"`, scanning left to right, non-overlapping. -/
def replaceFlk : List Char → List Char
  | '.' :: 'f' :: 'l' :: 'k' :: rest => replaceFlk rest
  | c :: cs => c :: replaceFlk cs
  | [] => []

/-- There is a `".flk"` occurrence at position `i` of `p`. -/
def matchAt (p : List Char) (i : Nat) : Prop := (p.drop i).take 4 = flk

instance (p : List Char) (i : Nat) : Decidable (matchAt p i) := by
  unfold matchAt
  infer_instance

/-- The path `p` contains no occurrence of `".flk"`. -/
def noFlk (p : List Char) : Prop := ∀ i < p.length, ¬ matchAt p i

instance (p : List Char) : Decidable (noFlk p) := by
  unfold noFlk
  infer_instance

theorem replaceFlk_flkPre (rest : List Char) :
    replaceFlk ('.' :: 'f' :: 'l' :: 'k' :: rest) = replaceFlk rest := rfl

theorem replaceFlk_cons_ne (c : Char) (cs : List Char)
    (h : List.take 4 (c :: cs) ≠ flk) :
    replaceFlk (c :: cs) = c :: replaceFlk cs := by
  rw [replaceFlk.eq_def]
  split
  · rename_i rest heq
    rw [heq] at h
    exact absurd (by simp [flk]) h
  · rename_i c2 cs2 heq
    cases heq
    rfl
  · simp_all

theorem take4_flk_iff (c : Char) (cs : List Char) :
    List.take 4 (c :: cs) = flk ↔ ∃ rest, c = '.' ∧ cs = 'f' :: 'l' :: 'k' :: rest := by
  constructor
  · intro h
    rcases cs with _ | ⟨c1, _ | ⟨c2, _ | ⟨c3, rest⟩⟩⟩
    · exact absurd (congrArg List.length h) (by simp [flk])
    · exact absurd (congrArg List.length h) (by simp [flk])
    · exact absurd (congrArg List.length h) (by simp [flk])
    · simp only [List.take, flk, List.cons.injEq, and_true] at h
      obtain ⟨h0, h1, h2, h3⟩ := h
      exact ⟨rest, h0, by rw [h1, h2, h3]⟩
  · rintro ⟨rest, rfl, rfl⟩
    rfl

theorem noFlk_cons {c : Char} {cs : List Char} (hp : noFlk (c :: cs)) : noFlk cs :=
  fun i hi hm => hp (i + 1) (by simp only [List.length_cons]; omega) hm

/-- Removing every `".flk"` from `p ++ ".flk"` gives back `p` when `p`
itself contains no occurrence (and, by the shape of `".flk"`, no
occurrence can straddle the boundary). -/
theorem replaceFlk_append_flk (p : List Char) (hp : noFlk p) :
    replaceFlk (p ++ flk) = p := by
  induction p with
  | nil => rfl
  | cons c cs ih =>
    have hnot : List.take 4 (c :: (cs ++ flk)) ≠ flk := by
      rcases cs with _ | ⟨c1, _ | ⟨c2, _ | ⟨c3, cs3⟩⟩⟩
      · intro h
        simp only [List.nil_append, flk, List.take, List.cons.injEq] at h
        exact absurd h.2.1 (by decide)
      · intro h
        simp only [List.cons_append, List.nil_append, flk, List.take,
          List.cons.injEq] at h
        exact absurd h.2.2.1 (by decide)
      · intro h
        simp only [List.cons_append, List.nil_append, flk, List.take,
          List.cons.injEq] at h
        exact absurd h.2.2.2 (by decide)
      · intro h
        have hm : matchAt (c :: c1 :: c2 :: c3 :: cs3) 0 := by
          simpa [matchAt] using h
        exact hp 0 (by simp) hm
    rw [List.cons_append, replaceFlk_cons_ne c (cs ++ flk) hnot]
    rw [ih (noFlk_cons hp)]

theorem replaceFlk_length_le (l : List Char) : (replaceFlk l).length ≤ l.length := by
  induction l using replaceFlk.induct with
  | case1 rest ih =>
    rw [replaceFlk_flkPre]
    simp only [List.length_cons]
    omega
  | case2 c cs hno ih =>
    have hne : List.take 4 (c :: cs) ≠ flk := by
      intro hc
      rw [take4_flk_iff] at hc
      obtain ⟨rest, h1, h2⟩ := hc
      exact hno rest h1 h2
    rw [replaceFlk_cons_ne c cs hne]
    simp only [List.length_cons]
    omega
  | case3 => simp [replaceFlk]

/-- One `".flk"` occurrence makes the replacement at least four
characters shorter. -/
theorem replaceFlk_length_matchAt (l : List Char) (i : Nat) (h : matchAt l i) :
    (replaceFlk l).length + 4 ≤ l.length := by
  induction l using replaceFlk.induct generalizing i with
  | case1 rest ih =>
    have := replaceFlk_length_le rest
    rw [replaceFlk_flkPre]
    simp only [List.length_cons]
    omega
  | case2 c cs hno ih =>
    have hne : List.take 4 (c :: cs) ≠ flk := by
      intro hc
      rw [take4_flk_iff] at hc
      obtain ⟨rest, h1, h2⟩ := hc
      exact hno rest h1 h2
    rcases i with _ | i
    · exact absurd h hne
    · have := ih i h
      rw [replaceFlk_cons_ne c cs hne]
      simp only [List.length_cons]
      omega
  | case3 => exact absurd h (by simp [matchAt, flk])

/-- Two disjoint `".flk"` occurrences make the replacement at least eight
characters shorter. -/
theorem replaceFlk_length_two (l : List Char) (i j : Nat)
    (hi : matchAt l i) (hj : matchAt l j) (hij : i + 4 ≤ j) :
    (replaceFlk l).length + 8 ≤ l.length := by
  induction l using replaceFlk.induct generalizing i j with
  | case1 rest ih =>
    have hj4 : 4 ≤ j := by omega
    have hdropj : ('.' :: 'f' :: 'l' :: 'k' :: rest).drop j = rest.drop (j - 4) := by
      have h4 := List.drop_drop (j - 4) 4 ('.' :: 'f' :: 'l' :: 'k' :: rest)
      rw [show (4 : Nat) + (j - 4) = j from by omega] at h4
      exact h4.symm
    have hj' : matchAt rest (j - 4) := by
      unfold matchAt at hj ⊢
      rw [hdropj] at hj
      exact hj
    have := replaceFlk_length_matchAt rest (j - 4) hj'
    rw [replaceFlk_flkPre]
    simp only [List.length_cons]
    omega
  | case2 c cs hno ih =>
    have hne : List.take 4 (c :: cs) ≠ flk := by
      intro hc
      rw [take4_flk_iff] at hc
      obtain ⟨rest, h1, h2⟩ := hc
      exact hno rest h1 h2
    rcases i with _ | i
    · exact absurd hi hne
    rcases j with _ | j
    · omega
    have := ih i j hi hj (by omega)
    rw [replaceFlk_cons_ne c cs hne]
    simp only [List.length_cons]
    omega
  | case3 => exact absurd hi (by simp [matchAt, flk])

/-- Outcomes of `encrypt_file` (which prints errors and returns; it does
not raise). -/
inductive EncResult where
  | ok
  | destExists
  | srcMissing
deriving DecidableEq

/-- `encrypt_file(file_path, password)` from src/src/filelock.py.  The
random `salt` and `iv` produced by `os.urandom(16)` are passed in as
arguments.  It refuses to run if `file_path + ".flk"` already exists,
reads the source, and writes the crypto container. -/
def encrypt_file (pr : Prims) (fs : FS) (path : Path) (password : List Char)
    (salt iv : Bytes) : EncResult × FS × List Ev :=
  if fsExists fs (path ++ flk) then (.destExists, fs, [])
  else
    match fsLookup fs path with
    | none => (.srcMissing, fs, [.read path])
    | some data =>
        (.ok, fsWrite fs (path ++ flk) (encryptBuf pr password salt iv data),
          [.read path, .write (path ++ flk)])

/-- Outcomes of `decrypt_file` (which prints errors and returns; it does
not raise). -/
inductive DecResult where
  | ok
  | badExtension
  | destExists
  | srcMissing
  | invalidPadding
  | integrityFailure
deriving DecidableEq

/-- `decrypt_file(file_path, password)` from src/src/filelock.py.  It
requires the `".flk"` extension, derives the output path with
`file_path.replace(".flk", "")`, refuses to run if that path exists,
reads and decrypts the container, and writes the plaintext.  On a hash
mismatch the code removes the output path if it exists (within one call
this is dead code, modelled faithfully) and reports the integrity
failure. -/
def decrypt_file (pr : Prims) (fs : FS) (path : Path) (password : List Char) :
    DecResult × FS × List Ev :=
  if ¬ endsWith4 path flk then (.badExtension, fs, [])
  else
    if fsExists fs (replaceFlk path) then (.destExists, fs, [])
    else
      match fsLookup fs path with
      | none => (.srcMissing, fs, [.read path])
      | some data =>
          match decryptBuf pr password data with
          | .error .invalidPadding => (.invalidPadding, fs, [.read path])
          | .error .integrityFailure =>
              if fsExists fs (replaceFlk path)
              then (.integrityFailure, fsRemove fs (replaceFlk path),
                [.read path, .remove (replaceFlk path)])
              else (.integrityFailure, fs, [.read path])
          | .ok q =>
              (.ok, fsWrite fs (replaceFlk path) q,
                [.read path, .write (replaceFlk path)])

/-- The compression container built by `compress_file`
(src/src/compression.py): `level (1) ‖ sha256(data) (32) ‖ deflate(data)`. -/
def compressBuf (pr : Prims) (level : Nat) (data : Bytes) : Bytes :=
  byte level :: (pr.sha256 data ++ pr.deflate level data)

/-- Outcomes of `compress_file`, which raises on failure.  `zeroDivision`
is the uncaught `ZeroDivisionError` from the compression-ratio
computation `(1 - len(compressed_data) / total_size) * 100` when
`total_size == 0`; it happens after the output file has been written. -/
inductive CompResult where
  | ok
  | invalidLevel
  | srcMissing
  | zeroDivision
deriving DecidableEq

/-- `compress_file(file_path, compression_level)` from
src/src/compression.py.  Validates the level before any I/O, reads the
source, writes `file_path + ".flc"`, then computes the compression ratio
(dividing by the original size with no guard).  The progress callback is
purely observational and is not modelled. -/
def compress_file (pr : Prims) (fs : FS) (path : Path) (level : Nat) :
    CompResult × FS × List Ev :=
  if ¬ (1 ≤ level ∧ level ≤ 9) then (.invalidLevel, fs, [])
  else
    match fsLookup fs path with
    | none => (.srcMissing, fs, [.read path])
    | some data =>
        let fs2 := fsWrite fs (path ++ flc) (compressBuf pr level data)
        if data.length = 0
        then (.zeroDivision, fs2, [.read path, .write (path ++ flc)])
        else (.ok, fs2, [.read path, .write (path ++ flc)])

/-- Index of the last occurrence of `c` in `l`, if any. -/
def lastIdxOf (c : Char) : List Char → Option Nat
  | [] => none
  | a :: as =>
    match lastIdxOf c as with
    | some i => some (i + 1)
    | none => if a = c then some 0 else none

/-- Pathlib suffix stripping on a file name (no directory part): remove
`name[i:]` where `i` is the last index of a dot, provided `0 < i <
len - 1`; otherwise the name has no suffix and is unchanged.  This is
CPython's `PurePath.suffix` rule. -/
def stripSuffix (name : List Char) : List Char :=
  match lastIdxOf '.' name with
  | none => name
  | some i => if 0 < i ∧ i < name.length - 1 then name.take i else name

/-- Model of `str(Path(p).with_suffix(""))` for an already normalised
path: apply the suffix rule to the part after the last `'/'`. -/
def withSuffixEmpty (p : Path) : Path :=
  match lastIdxOf '/' p with
  | none => stripSuffix p
  | some s => p.take (s + 1) ++ stripSuffix (p.drop (s + 1))

/-- Outcomes of `decompress_file`, which raises on failure. -/
inductive DecompResult where
  | ok
  | badExtension
  | srcMissing
  | decompressError
  | integrityFailure
deriving DecidableEq

/-- Failure modes of the buffer-level decompression in `decompress_file`:
a `zlib.error` on a malformed deflate stream (re-raised as `ValueError
"Failed to decompress data"`), or the stored-hash mismatch (`ValueError
"File integrity check failed"`). -/
inductive DecompErr where
  | decompressError
  | integrityFailure
deriving DecidableEq

/-- The buffer-level decompression performed by `decompress_file`
(src/src/compression.py): skip the level byte (`f.read(1)`), read the
32-byte stored hash, inflate the rest, and verify the hash of the
decompressed bytes. -/
def decompressBuf (pr : Prims) (data : Bytes) : Except DecompErr Bytes :=
  match pr.inflate (data.drop 33) with
  | none => .error .decompressError
  | some out =>
      if pr.sha256 out ≠ (data.drop 1).take 32 then .error .integrityFailure
      else .ok out

/-- `decompress_file(file_path)` from src/src/compression.py.  Requires
the `".flc"` extension, reads the container, decompresses and verifies it
(`decompressBuf`), and writes `str(Path(file_path).with_suffix(""))`. -/
def decompress_file (pr : Prims) (fs : FS) (path : Path) :
    DecompResult × FS × List Ev :=
  if ¬ endsWith4 path flc then (.badExtension, fs, [])
  else
    match fsLookup fs path with
    | none => (.srcMissing, fs, [.read path])
    | some data =>
        match decompressBuf pr data with
        | .error .decompressError => (.decompressError, fs, [.read path])
        | .error .integrityFailure => (.integrityFailure, fs, [.read path])
        | .ok out =>
            (.ok, fsWrite fs (withSuffixEmpty path) out,
              [.read path, .write (withSuffixEmpty path)])

/-- Outcomes of `secure_file`, which raises `ValueError` on a bad level
and wraps any other stage failure in `ValueError("Failed to secure
file: ...")`. -/
inductive SecResult where
  | ok
  | invalidLevel
  | wrapped
deriving DecidableEq

/-- `secure_file(file_path, password, compression_level)` from
src/src/main.py.  Validates the level, calls `encrypt_file` (which never
raises — its errors are printed and swallowed, and secure proceeds
regardless), compresses `file_path + ".flk"`, and removes that
intermediate.  If compression raises, the handler removes the
intermediate if it exists and re-raises a wrapped error. -/
def secure_file (pr : Prims) (fs : FS) (path : Path) (password : List Char)
    (level : Nat) (salt iv : Bytes) : SecResult × FS × List Ev :=
  if ¬ (1 ≤ level ∧ level ≤ 9) then (.invalidLevel, fs, [])
  else
    let r1 := encrypt_file pr fs path password salt iv
    let fs1 := r1.2.1
    let t1 := r1.2.2
    let epath := path ++ flk
    let r2 := compress_file pr fs1 epath level
    let fs2 := r2.2.1
    let t2 := r2.2.2
    match r2.1 with
    | .ok => (.ok, fsRemove fs2 epath, t1 ++ t2 ++ [.remove epath])
    | _ =>
        if fsExists fs2 epath
        then (.wrapped, fsRemove fs2 epath, t1 ++ t2 ++ [.remove epath])
        else (.wrapped, fs2, t1 ++ t2)

/-- Outcomes of `restore_file`, which raises `ValueError` on a bad
extension and wraps any stage failure. -/
inductive ResResult where
  | ok
  | badExtension
  | wrapped
deriving DecidableEq

/-- `restore_file(file_path, password)` from src/src/main.py.  Requires
the `".flc"` extension, decompresses, calls `decrypt_file` on
`file_path[:-4]` (decrypt's printed errors are swallowed — restore
proceeds regardless of its outcome), and removes that intermediate with
`os.remove`, which raises if the file is absent; the handler then removes
the intermediate if it exists and re-raises a wrapped error. -/
def restore_file (pr : Prims) (fs : FS) (path : Path) (password : List Char) :
    ResResult × FS × List Ev :=
  if ¬ endsWith4 path flc then (.badExtension, fs, [])
  else
    let dfile := path.take (path.length - 4)
    let r1 := decompress_file pr fs path
    let fs1 := r1.2.1
    let t1 := r1.2.2
    match r1.1 with
    | .ok =>
        let r2 := decrypt_file pr fs1 dfile password
        let fs2 := r2.2.1
        let t2 := r2.2.2
        if fsExists fs2 dfile
        then (.ok, fsRemove fs2 dfile, t1 ++ t2 ++ [.remove dfile])
        else (.wrapped, fs2, t1 ++ t2)
    | _ =>
        if fsExists fs1 dfile
        then (.wrapped, fsRemove fs1 dfile, t1 ++ [.remove dfile])
        else (.wrapped, fs1, t1)

/-! ## Path lemmas -/

/-- The `".flk.flc"` suffix carried by the final artifact of
`secure_file`. -/
def flkflc : Path := flk ++ flc

theorem append_ne_left (a : List Char) {b : List Char} (hb : b ≠ []) :
    a ++ b ≠ a := by
  intro h
  have := congrArg List.length h
  simp at this
  exact hb this

theorem append_ne_append_len {a b c : List Char} (h : b.length ≠ c.length) :
    a ++ b ≠ a ++ c := by
  intro he
  have := congrArg List.length he
  simp at this
  exact h this

theorem lastIdxOf_append (c : Char) (a b : List Char) :
    lastIdxOf c (a ++ b) =
      match lastIdxOf c b with
      | some j => some (a.length + j)
      | none => lastIdxOf c a := by
  induction a with
  | nil =>
    cases h : lastIdxOf c b <;> simp [h, lastIdxOf]
  | cons x xs ih =>
    cases h : lastIdxOf c b with
    | none =>
      simp only [h] at ih ⊢
      simp only [List.cons_append, lastIdxOf, List.append_eq, ih]
    | some j =>
      simp only [h] at ih ⊢
      simp only [List.cons_append, lastIdxOf, List.append_eq, ih, List.length_cons]
      congr 1
      omega

theorem lastIdxOf_lt_length {c : Char} {l : List Char} {i : Nat}
    (h : lastIdxOf c l = some i) : i < l.length := by
  induction l generalizing i with
  | nil => simp [lastIdxOf] at h
  | cons x xs ih =>
    simp only [lastIdxOf] at h
    cases h2 : lastIdxOf c xs with
    | some k =>
      rw [h2] at h
      simp only [Option.some.injEq] at h
      have := ih h2
      simp only [List.length_cons]
      omega
    | none =>
      rw [h2] at h
      by_cases hx : x = c
      · rw [if_pos hx] at h
        injection h with h
        simp only [List.length_cons]
        omega
      · simp [hx] at h

theorem stripSuffix_append_flkflc (b : List Char) :
    stripSuffix (b ++ flkflc) = b ++ flk := by
  unfold stripSuffix
  rw [lastIdxOf_append]
  have h1 : lastIdxOf '.' flkflc = some 4 := by decide
  rw [h1]
  simp only []
  rw [if_pos]
  · rw [List.take_append]
    congr 1
  · constructor
    · omega
    · have : (b ++ flkflc).length = b.length + 8 := by simp [flkflc, flk, flc]
      omega

theorem withSuffixEmpty_flkflc (p : Path) :
    withSuffixEmpty (p ++ flkflc) = p ++ flk := by
  unfold withSuffixEmpty
  rw [lastIdxOf_append]
  have h0 : lastIdxOf '/' flkflc = none := by decide
  rw [h0]
  simp only []
  cases hs : lastIdxOf '/' p with
  | none => exact stripSuffix_append_flkflc p
  | some s =>
    have hlt : s < p.length := lastIdxOf_lt_length hs
    simp only []
    rw [List.take_append_of_le_length (by omega),
      List.drop_append_of_le_length (by omega)]
    rw [stripSuffix_append_flkflc, ← List.append_assoc]
    congr 1
    exact List.take_append_drop _ p

theorem endsWith4_append (p : Path) {s : Path} (hs : s.length = 4) :
    endsWith4 (p ++ s) s := by
  unfold endsWith4
  have h : (p ++ s).length - 4 = p.length + 0 := by
    simp [hs]
  rw [h, List.drop_append]
  simp

theorem not_endsWith4_flkflc_flk (p : Path) : ¬ endsWith4 (p ++ flkflc) flk := by
  unfold endsWith4
  have hl : (p ++ flkflc).length - 4 = p.length + 4 := by
    have : (p ++ flkflc).length = p.length + 8 := by simp [flkflc, flk, flc]
    omega
  rw [hl, List.drop_append]
  decide

theorem noFlk_not_endsWith4 (p : Path) (hp : noFlk p) : ¬ endsWith4 p flk := by
  intro h
  unfold endsWith4 at h
  have hlen : 4 ≤ p.length := by
    have := congrArg List.length h
    simp [flk] at this
    omega
  have hm : matchAt p (p.length - 4) := by
    unfold matchAt
    rw [h]
    decide
  exact hp (p.length - 4) (by omega) hm

/-- `file_path[:-4]` on a path of the form `p ++ ".flk.flc"`. -/
theorem take_sub4_flkflc (p : Path) :
    (p ++ flkflc).take ((p ++ flkflc).length - 4) = p ++ flk := by
  have hl : (p ++ flkflc).length - 4 = p.length + 4 := by
    have : (p ++ flkflc).length = p.length + 8 := by simp [flkflc, flk, flc]
    omega
  rw [hl, List.take_append]
  congr 1

/-! ## Concrete primitive instances for witnesses

The theorems below are stated over any `Prims` satisfying the documented
library behaviour; these small concrete instances let the witnesses
instantiate and evaluate them. -/

/-- Trivial instance: identity cipher and compressor, constant digest. -/
def idPrims : Prims where
  derive_key _ _ := List.replicate 32 (byte 0)
  cbc_encrypt _ _ x := x
  cbc_decrypt _ _ x := x
  sha256 _ := List.replicate 32 (byte 0)
  deflate _ x := x
  inflate x := some x

/-- Instance with a password-sensitive key and a key-sensitive cipher
(add/subtract the first key byte), whose digest distinguishes the
distinguished plaintext `[7]`; decryption under a wrong key garbles. -/
def c2Prims : Prims where
  derive_key pw _ := if pw = ['a'] then [byte 1] else [byte 0]
  cbc_encrypt k _ x := x.map (fun b => b + k.headD (byte 0))
  cbc_decrypt k _ x := x.map (fun b => b - k.headD (byte 0))
  sha256 x := if x = [byte 7] then byte 1 :: List.replicate 31 (byte 0)
    else List.replicate 32 (byte 0)
  deflate _ x := x
  inflate x := some x

/-- Buffer-level round trip of the compression container, given the
documented zlib behaviour. -/
theorem decompressBuf_compressBuf (pr : Prims) (level : Nat) (data : Bytes)
    (hsha : ∀ x, (pr.sha256 x).length = 32)
    (hinf : ∀ l x, pr.inflate (pr.deflate l x) = some x) :
    decompressBuf pr (compressBuf pr level data) = .ok data := by
  have hdrop1 : (compressBuf pr level data).drop 1 =
      pr.sha256 data ++ pr.deflate level data := rfl
  have hdrop33 : (compressBuf pr level data).drop 33 = pr.deflate level data := by
    have h32 : (compressBuf pr level data).drop 33 =
        (pr.sha256 data ++ pr.deflate level data).drop 32 := by
      have := List.drop_drop 32 1 (compressBuf pr level data)
      rw [hdrop1] at this
      exact this.symm
    rw [h32, ← hsha data, List.drop_left]
  have hstored : ((compressBuf pr level data).drop 1).take 32 = pr.sha256 data := by
    rw [hdrop1, ← hsha data, List.take_left]
  unfold decompressBuf
  rw [hdrop33, hinf, hstored]
  simp

/-! ## Small filesystem lemmas -/

theorem fsLookup_cons_self (q : Path) (d : Bytes) (fs : FS) :
    fsLookup ((q, d) :: fs) q = some d := by
  simp [fsLookup]

theorem fsLookup_cons_ne {a q : Path} (h : a ≠ q) (d : Bytes) (fs : FS) :
    fsLookup ((a, d) :: fs) q = fsLookup fs q := by
  simp [fsLookup, h]

theorem fsRemove_nil (q : Path) : fsRemove [] q = [] := rfl

theorem fsRemove_cons_ne {a q : Path} (h : a ≠ q) (d : Bytes) (fs : FS) :
    fsRemove ((a, d) :: fs) q = (a, d) :: fsRemove fs q := by
  simp [fsRemove, List.filter_cons, h]

theorem fsRemove_cons_self {a q : Path} (h : a = q) (d : Bytes) (fs : FS) :
    fsRemove ((a, d) :: fs) q = fsRemove fs q := by
  simp [fsRemove, List.filter_cons, h]

theorem fsLookup_fsWrite_self (fs : FS) (p : Path) (d : Bytes) :
    fsLookup (fsWrite fs p d) p = some d := by
  simp [fsWrite, fsLookup]

/-! ## Big-step lemmas for the file-level operations -/

theorem encrypt_file_ok (pr : Prims) (fs : FS) (path : Path) (pw : List Char)
    (salt iv : Bytes) (data : Bytes)
    (hne : fsExists fs (path ++ flk) = false)
    (hlook : fsLookup fs path = some data) :
    encrypt_file pr fs path pw salt iv =
      (.ok, fsWrite fs (path ++ flk) (encryptBuf pr pw salt iv data),
        [.read path, .write (path ++ flk)]) := by
  unfold encrypt_file
  rw [if_neg (by simp [hne]), hlook]

theorem encrypt_file_destExists (pr : Prims) (fs : FS) (path : Path)
    (pw : List Char) (salt iv : Bytes)
    (h : fsExists fs (path ++ flk) = true) :
    encrypt_file pr fs path pw salt iv = (.destExists, fs, []) := by
  unfold encrypt_file
  rw [if_pos h]

theorem decrypt_file_destExists (pr : Prims) (fs : FS) (path : Path)
    (pw : List Char)
    (hext : endsWith4 path flk)
    (h : fsExists fs (replaceFlk path) = true) :
    decrypt_file pr fs path pw = (.destExists, fs, []) := by
  unfold decrypt_file
  rw [if_neg (not_not_intro hext), if_pos h]

theorem decrypt_file_ok (pr : Prims) (fs : FS) (path : Path) (pw : List Char)
    (data q : Bytes)
    (hext : endsWith4 path flk)
    (hne : fsExists fs (replaceFlk path) = false)
    (hlook : fsLookup fs path = some data)
    (hdec : decryptBuf pr pw data = .ok q) :
    decrypt_file pr fs path pw =
      (.ok, fsWrite fs (replaceFlk path) q,
        [.read path, .write (replaceFlk path)]) := by
  unfold decrypt_file
  rw [if_neg (not_not_intro hext), if_neg (by simp [hne]), hlook]
  dsimp only
  rw [hdec]

theorem compress_file_ok (pr : Prims) (fs : FS) (path : Path) (level : Nat)
    (data : Bytes)
    (hlevel : 1 ≤ level ∧ level ≤ 9)
    (hlook : fsLookup fs path = some data)
    (hdata : data ≠ []) :
    compress_file pr fs path level =
      (.ok, fsWrite fs (path ++ flc) (compressBuf pr level data),
        [.read path, .write (path ++ flc)]) := by
  unfold compress_file
  rw [if_neg (not_not_intro hlevel), hlook]
  dsimp only
  rw [if_neg (by simp [hdata])]

theorem decompress_file_ok (pr : Prims) (fs : FS) (path : Path)
    (data out : Bytes)
    (hext : endsWith4 path flc)
    (hlook : fsLookup fs path = some data)
    (hdec : decompressBuf pr data = .ok out) :
    decompress_file pr fs path =
      (.ok, fsWrite fs (withSuffixEmpty path) out,
        [.read path, .write (withSuffixEmpty path)]) := by
  unfold decompress_file
  rw [if_neg (not_not_intro hext), hlook]
  dsimp only
  rw [hdec]

/-- `(a ++ s)[:-4]` recovers `a` when `s` has four characters. -/
theorem take_len_sub4 (a : Path) {s : Path} (hs : s.length = 4) :
    (a ++ s).take ((a ++ s).length - 4) = a := by
  have h : (a ++ s).length - 4 = a.length := by
    simp [hs]
  rw [h, List.take_left]

theorem endsWith4_flkflc_flc (p : Path) : endsWith4 (p ++ flkflc) flc := by
  have h : p ++ flkflc = (p ++ flk) ++ flc := by
    simp [flkflc, List.append_assoc]
  rw [h]
  exact endsWith4_append _ rfl

theorem flk_ne_nil : flk ≠ [] := by decide

theorem flkflc_ne_nil : flkflc ≠ [] := by decide

/-! ## Claim theorems -/

/-- Concrete 16-byte salt used by witnesses (the model passes the
`os.urandom(16)` values in as arguments). -/
def salt0 : Bytes := List.replicate 16 (byte 0)

/-- Concrete 16-byte IV used by witnesses. -/
def iv0 : Bytes := List.replicate 16 (byte 0)

/-- Claim C1: for every byte buffer P (including the empty buffer) and
every non-empty password string W, decrypting the container produced by
encrypting P under W, using the same password W, yields exactly P — for
any primitives with the documented library behaviour (32-byte digests,
length-preserving CBC encryption, CBC decryption inverting encryption)
and any 16-byte salt and IV. -/
theorem claim_C1_roundtrip (pr : Prims) (W : List Char) (salt iv P : Bytes)
    (_hW : W ≠ [])
    (hsalt : salt.length = 16) (hiv : iv.length = 16)
    (hsha : ∀ x, (pr.sha256 x).length = 32)
    (henc : ∀ k v x, (pr.cbc_encrypt k v x).length = x.length)
    (hdec : ∀ k v x, pr.cbc_decrypt k v (pr.cbc_encrypt k v x) = x) :
    decryptBuf pr W (encryptBuf pr W salt iv P) = .ok P :=
  decryptBuf_encryptBuf pr W salt iv P hsalt hiv hsha henc hdec

/-- Witness for C1, at the empty buffer and password "a". -/
theorem claim_C1_roundtrip_witness :
    decryptBuf idPrims ['a'] (encryptBuf idPrims ['a'] salt0 iv0 []) = .ok [] :=
  claim_C1_roundtrip idPrims ['a'] salt0 iv0 [] (by decide)
    (by simp [salt0]) (by simp [iv0])
    (fun _ => by simp [idPrims])
    (fun _ _ _ => rfl) (fun _ _ _ => rfl)

/-- Parsing the four fields back out of an `encrypt_file` container. -/
theorem encryptBuf_parse (pr : Prims) (pw : List Char) (salt iv data : Bytes)
    (hsalt : salt.length = 16) (hiv : iv.length = 16)
    (hsha : ∀ x, (pr.sha256 x).length = 32) :
    (encryptBuf pr pw salt iv data).take 16 = salt ∧
    ((encryptBuf pr pw salt iv data).drop 16).take 16 = iv ∧
    ((encryptBuf pr pw salt iv data).drop 32).take 32 = pr.sha256 data ∧
    (encryptBuf pr pw salt iv data).drop 64 =
      pr.cbc_encrypt (pr.derive_key pw salt) iv (pad16 data) := by
  have hassoc : encryptBuf pr pw salt iv data =
      salt ++ (iv ++ (pr.sha256 data ++
        pr.cbc_encrypt (pr.derive_key pw salt) iv (pad16 data))) := by
    simp [encryptBuf]
  set ct := pr.cbc_encrypt (pr.derive_key pw salt) iv (pad16 data) with hct
  have hdrop16 : (encryptBuf pr pw salt iv data).drop 16 =
      iv ++ (pr.sha256 data ++ ct) := by
    rw [hassoc, ← hsalt, List.drop_left]
  have hdrop32 : (encryptBuf pr pw salt iv data).drop 32 =
      pr.sha256 data ++ ct := by
    have h3216 : (32 : Nat) = 16 + 16 := by omega
    rw [h3216, ← List.drop_drop, hdrop16, ← hiv, List.drop_left]
  refine ⟨?_, ?_, ?_, ?_⟩
  · rw [hassoc, ← hsalt, List.take_left]
  · rw [hdrop16, ← hiv, List.take_left]
  · rw [hdrop32, ← hsha data, List.take_left]
  · have h6432 : (64 : Nat) = 32 + 32 := by omega
    rw [h6432, ← List.drop_drop, hdrop32, ← hsha data, List.drop_left]

/-- Decrypting an honest container under a garbling wrong key either hits
the invalid-padding path, or unpads to some plaintext whose digest cannot
match the stored digest of the true plaintext. -/
theorem decryptBuf_wrong_key (pr : Prims) (W1 W2 : List Char)
    (salt iv P : Bytes)
    (hsalt : salt.length = 16) (hiv : iv.length = 16)
    (hsha : ∀ x, (pr.sha256 x).length = 32)
    (henc : ∀ k v x, (pr.cbc_encrypt k v x).length = x.length)
    (hcoll : ∀ q, pr.sha256 q = pr.sha256 P → q = P)
    (hgar : pr.cbc_decrypt (pr.derive_key W2 salt) iv
        (pr.cbc_encrypt (pr.derive_key W1 salt) iv (pad16 P)) ≠ pad16 P) :
    decryptBuf pr W2 (encryptBuf pr W1 salt iv P) = .error .invalidPadding ∨
    decryptBuf pr W2 (encryptBuf pr W1 salt iv P) = .error .integrityFailure := by
  obtain ⟨hp1, hp2, hp3, hp4⟩ := encryptBuf_parse pr W1 salt iv P hsalt hiv hsha
  unfold decryptBuf
  rw [hp1, hp2, hp3, hp4]
  rw [if_neg (by simp [hiv]), if_neg (by rw [henc]; simp [pad16_length_mod])]
  cases hunp : unpad16 (pr.cbc_decrypt (pr.derive_key W2 salt) iv
      (pr.cbc_encrypt (pr.derive_key W1 salt) iv (pad16 P))) with
  | none =>
    left
    rfl
  | some q =>
    right
    have hyq := unpad16_some hunp
    have hqP : q ≠ P := by
      intro hqp
      rw [hqp] at hyq
      exact hgar hyq
    dsimp only
    rw [if_neg (fun hsq => hqP (hcoll q hsq))]

/-- Claim C2: decrypting `encrypt(P, W1)` with a different password W2
(modelled by the wrong-key-garbles hypothesis `hgar`, plus
collision-freeness of the digest at P) always fails — with one of the two
failure modes the specification's §4.1/§7 taxonomy groups under
`IntegrityError` (invalid padding, or stored-hash mismatch) — never
returns a plaintext different from P as if successful, and at file level
leaves the filesystem unchanged, so it never creates or overwrites the
destination file. -/
theorem claim_C2_wrong_password (pr : Prims) (W1 W2 : List Char)
    (salt iv P : Bytes)
    (hsalt : salt.length = 16) (hiv : iv.length = 16)
    (hsha : ∀ x, (pr.sha256 x).length = 32)
    (henc : ∀ k v x, (pr.cbc_encrypt k v x).length = x.length)
    (hcoll : ∀ q, pr.sha256 q = pr.sha256 P → q = P)
    (hgar : pr.cbc_decrypt (pr.derive_key W2 salt) iv
        (pr.cbc_encrypt (pr.derive_key W1 salt) iv (pad16 P)) ≠ pad16 P) :
    (decryptBuf pr W2 (encryptBuf pr W1 salt iv P) = .error .invalidPadding ∨
     decryptBuf pr W2 (encryptBuf pr W1 salt iv P) = .error .integrityFailure) ∧
    ∀ fs path, endsWith4 path flk →
      fsLookup fs path = some (encryptBuf pr W1 salt iv P) →
      (decrypt_file pr fs path W2).2.1 = fs ∧
      (decrypt_file pr fs path W2).1 ≠ .ok := by
  have hbuf := decryptBuf_wrong_key pr W1 W2 salt iv P hsalt hiv hsha henc hcoll hgar
  refine ⟨hbuf, ?_⟩
  intro fs path hext hlook
  unfold decrypt_file
  rw [if_neg (not_not_intro hext)]
  by_cases hex : fsExists fs (replaceFlk path) = true
  · rw [if_pos hex]
    exact ⟨rfl, fun hc => DecResult.noConfusion hc⟩
  · rw [if_neg hex, hlook]
    dsimp only
    rcases hbuf with hb | hb
    · rw [hb]
      exact ⟨rfl, fun hc => DecResult.noConfusion hc⟩
    · rw [hb, if_neg hex]
      exact ⟨rfl, fun hc => DecResult.noConfusion hc⟩

/-- The container of the C2 witness: plaintext `[7]` encrypted under
password "a" with the `c2Prims` instance. -/
def c2container : Bytes := encryptBuf c2Prims ['a'] salt0 iv0 [byte 7]

/-- The path of the C2 witness, ending in `".flk"`. -/
def c2path : Path := ['x', '.', 'f', 'l', 'k']

/-- Witness for C2: password "b" against a container produced under
password "a". -/
theorem claim_C2_wrong_password_witness :
    (decryptBuf c2Prims ['b'] c2container = .error .invalidPadding ∨
     decryptBuf c2Prims ['b'] c2container = .error .integrityFailure) ∧
    ((decrypt_file c2Prims [(c2path, c2container)] c2path ['b']).2.1
        = [(c2path, c2container)] ∧
     (decrypt_file c2Prims [(c2path, c2container)] c2path ['b']).1 ≠ .ok) := by
  have h := claim_C2_wrong_password c2Prims ['a'] ['b'] salt0 iv0 [byte 7]
    (by simp [salt0]) (by simp [iv0])
    (fun x => by
      by_cases hx : x = [byte 7] <;> simp [c2Prims, hx])
    (fun k v x => by simp [c2Prims])
    (fun q hq => by
      by_cases hx : q = [byte 7]
      · exact hx
      · exfalso
        simp only [c2Prims, if_pos rfl, if_neg hx] at hq
        exact absurd hq (by decide))
    (by decide)
  exact ⟨h.1, h.2 [(c2path, c2container)] c2path (by decide) rfl⟩

/-- Claim C4: for every byte buffer P and every compression level L in
[1,9], decompressing the container produced by compressing P at level L
yields exactly P, for any primitives where inflate inverts deflate and
digests are 32 bytes. -/
theorem claim_C4_compression_roundtrip (pr : Prims) (P : Bytes) (L : Nat)
    (_hL : 1 ≤ L ∧ L ≤ 9)
    (hsha : ∀ x, (pr.sha256 x).length = 32)
    (hinf : ∀ l x, pr.inflate (pr.deflate l x) = some x) :
    decompressBuf pr (compressBuf pr L P) = .ok P :=
  decompressBuf_compressBuf pr L P hsha hinf

/-- Witness for C4, at buffer [1] and level 6. -/
theorem claim_C4_compression_roundtrip_witness :
    decompressBuf idPrims (compressBuf idPrims 6 [byte 1]) = .ok [byte 1] :=
  claim_C4_compression_roundtrip idPrims [byte 1] 6 (by omega)
    (fun _ => by simp [idPrims]) (fun _ _ => rfl)

/-- Claim C5 counterexample: on a 40-byte container the code does not
fail with a malformed-container error; it proceeds to key derivation and
decryption with the truncated fields and fails on the invalid-padding
`ValueError` path, whereas the spec-modelled decrypt rejects the
container up front with `MalformedContainerError`. -/
theorem claim_C5_counterexample :
    decryptBuf idPrims ['a'] (List.replicate 40 (byte 0)) =
      .error .invalidPadding ∧
    decryptBufSpec idPrims ['a'] (List.replicate 40 (byte 0)) =
      .error .malformedContainer := by
  constructor <;> rfl

/-- Claim C5 as amended: for every input container shorter than 64 bytes
the decrypt operation still fails before producing any plaintext, but via
the invalid-padding `ValueError` path (truncated IV, or empty ciphertext
whose unpadding fails) — there is no distinct malformed-container
check. -/
theorem claim_C5_short_container (pr : Prims) (pw : List Char)
    (data : Bytes) (h : data.length < 64)
    (hdlen : ∀ k v x, (pr.cbc_decrypt k v x).length = x.length) :
    decryptBuf pr pw data = .error .invalidPadding := by
  unfold decryptBuf
  by_cases hiv : ((data.drop 16).take 16).length = 16
  · have hlen16 : ((data.drop 16).take 16).length = min 16 (data.length - 16) := by
      simp [List.length_take, List.length_drop]
    have h32 : 32 ≤ data.length := by omega
    have hct : data.drop 64 = [] := List.drop_eq_nil_of_le (by omega)
    rw [if_neg (by simp [hiv]), hct]
    simp only [List.length_nil]
    rw [if_neg (by decide)]
    have hy : pr.cbc_decrypt (pr.derive_key pw (data.take 16))
        ((data.drop 16).take 16) [] = [] := by
      have := hdlen (pr.derive_key pw (data.take 16)) ((data.drop 16).take 16) []
      simpa using List.length_eq_zero.mp (by simpa using this)
    rw [hy]
    rfl
  · rw [if_pos (by simpa using hiv)]

/-- Witness for the amended C5, at the empty container. -/
theorem claim_C5_short_container_witness :
    decryptBuf idPrims ['a'] [] = .error .invalidPadding :=
  claim_C5_short_container idPrims ['a'] [] (by decide) (fun _ _ _ => rfl)

/-- Claim C6: for every compression level outside [1,9], both
`compress_file` and `secure_file` fail with the level-validation error,
with the filesystem unchanged and an empty I/O trace — the validation
happens before any file is read or written. -/
theorem claim_C6_level_validation (pr : Prims) (fs : FS) (path : Path)
    (pw : List Char) (level : Nat) (salt iv : Bytes)
    (h : level < 1 ∨ 9 < level) :
    compress_file pr fs path level = (.invalidLevel, fs, []) ∧
    secure_file pr fs path pw level salt iv = (.invalidLevel, fs, []) := by
  have hc : ¬ (1 ≤ level ∧ level ≤ 9) := by omega
  constructor
  · unfold compress_file
    rw [if_pos hc]
  · unfold secure_file
    rw [if_pos hc]

/-- Witness for C6, at level 0. -/
theorem claim_C6_level_validation_witness :
    compress_file idPrims [] ['a'] 0 = (.invalidLevel, [], []) ∧
    secure_file idPrims [] ['a'] ['p'] 0 salt0 iv0 = (.invalidLevel, [], []) :=
  claim_C6_level_validation idPrims [] ['a'] ['p'] 0 salt0 iv0 (by omega)

/-- Claim C7 (code-bug evidence): compressing a zero-length file reaches
the compression-ratio computation
`(1 - len(compressed_data) / total_size) * 100` with `total_size == 0`
and raises an uncaught `ZeroDivisionError` — after the `.flc` output has
already been written.  The specification instead requires a guarded,
defined 0% ratio for zero-length input. -/
theorem claim_C7_empty_zero_division :
    (compress_file idPrims [(['e'], [])] ['e'] 6).1 = .zeroDivision ∧
    fsLookup (compress_file idPrims [(['e'], [])] ['e'] 6).2.1 (['e'] ++ flc)
      = some (compressBuf idPrims 6 []) := by
  constructor <;> rfl

/-- Claim C8 counterexample: securing the file `"a"` succeeds, but no
artifact is written at `"a" + ".secured"` — the final artifact lives at
`"a" + ".flk.flc"` instead (second conjunct left to the amended
theorem). -/
theorem claim_C8_counterexample :
    (secure_file idPrims [(['a'], [byte 3])] ['a'] ['p'] 6 salt0 iv0).1 = .ok ∧
    fsLookup (secure_file idPrims [(['a'], [byte 3])] ['a'] ['p'] 6 salt0 iv0).2.1
      (['a'] ++ securedExt) = none := by
  constructor <;> rfl

/-- Claim C8 as amended: for every input path, `secure_file` writes its
final artifact to the path obtained by appending `".flk.flc"` (the
`".flk"` intermediate name plus the `".flc"` compression extension), not
`".secured"`. -/
theorem claim_C8_artifact_path (pr : Prims) (fs : FS) (p : Path)
    (pw : List Char) (level : Nat) (salt iv F : Bytes)
    (hlevel : 1 ≤ level ∧ level ≤ 9)
    (hsalt : salt.length = 16)
    (hlook : fsLookup fs p = some F)
    (hne : fsExists fs (p ++ flk) = false) :
    (secure_file pr fs p pw level salt iv).1 = .ok ∧
    fsLookup (secure_file pr fs p pw level salt iv).2.1 (p ++ flkflc) =
      some (compressBuf pr level (encryptBuf pr pw salt iv F)) := by
  have hcne : encryptBuf pr pw salt iv F ≠ [] := by
    intro h
    have := congrArg List.length h
    simp [encryptBuf, hsalt] at this
  have hassoc : (p ++ flk) ++ flc = p ++ flkflc := by
    simp [flkflc, List.append_assoc]
  have hl2 : fsLookup (fsWrite fs (p ++ flk) (encryptBuf pr pw salt iv F))
      (p ++ flk) = some (encryptBuf pr pw salt iv F) :=
    fsLookup_fsWrite_self _ _ _
  unfold secure_file
  rw [if_neg (not_not_intro hlevel),
    encrypt_file_ok pr fs p pw salt iv F hne hlook]
  dsimp only
  rw [compress_file_ok pr _ (p ++ flk) level (encryptBuf pr pw salt iv F)
    hlevel hl2 hcne]
  dsimp only
  refine ⟨rfl, ?_⟩
  rw [hassoc]
  have hne2 : p ++ flk ≠ p ++ flkflc := append_ne_append_len (by decide)
  calc fsLookup (fsRemove (fsWrite (fsWrite fs (p ++ flk)
          (encryptBuf pr pw salt iv F)) (p ++ flkflc)
          (compressBuf pr level (encryptBuf pr pw salt iv F))) (p ++ flk))
        (p ++ flkflc)
      = fsLookup (fsWrite (fsWrite fs (p ++ flk)
          (encryptBuf pr pw salt iv F)) (p ++ flkflc)
          (compressBuf pr level (encryptBuf pr pw salt iv F))) (p ++ flkflc) := by
        rw [fsWrite, fsRemove_cons_ne (fun h => hne2 h.symm)]
        exact fsLookup_cons_self _ _ _ |>.trans (fsLookup_fsWrite_self _ _ _).symm
          |>.trans rfl |>.symm ▸ rfl
    _ = some (compressBuf pr level (encryptBuf pr pw salt iv F)) :=
        fsLookup_fsWrite_self _ _ _

/-- Witness for the amended C8, at path `"a"`, level 6. -/
theorem claim_C8_artifact_path_witness :
    (secure_file idPrims [(['a'], [byte 3])] ['a'] ['p'] 6 salt0 iv0).1 = .ok ∧
    fsLookup (secure_file idPrims [(['a'], [byte 3])] ['a'] ['p'] 6 salt0 iv0).2.1
      (['a'] ++ flkflc) =
      some (compressBuf idPrims 6 (encryptBuf idPrims ['p'] salt0 iv0 [byte 3])) :=
  claim_C8_artifact_path idPrims [(['a'], [byte 3])] ['a'] ['p'] 6 salt0 iv0
    [byte 3] (by omega) (by simp [salt0]) rfl rfl

/-- Claim C9: if the destination file already exists, both `encrypt_file`
(destination `path + ".flk"`) and `decrypt_file` (destination
`path.replace(".flk", "")`) refuse to run, returning with the filesystem
completely unchanged and an empty I/O trace. -/
theorem claim_C9_dest_exists_refusal (pr : Prims) (fs : FS) (path : Path)
    (pw : List Char) (salt iv : Bytes) :
    (fsExists fs (path ++ flk) = true →
      encrypt_file pr fs path pw salt iv = (.destExists, fs, [])) ∧
    (endsWith4 path flk → fsExists fs (replaceFlk path) = true →
      decrypt_file pr fs path pw = (.destExists, fs, [])) :=
  ⟨fun h => encrypt_file_destExists pr fs path pw salt iv h,
   fun hext h => decrypt_file_destExists pr fs path pw hext h⟩

/-- Witness for C9: encrypt with `"a.flk"` present; decrypt `"a.flk"`
with `"a"` present. -/
theorem claim_C9_dest_exists_refusal_witness :
    encrypt_file idPrims [(['a', '.', 'f', 'l', 'k'], [])] ['a'] ['p'] salt0 iv0
      = (.destExists, [(['a', '.', 'f', 'l', 'k'], [])], []) ∧
    decrypt_file idPrims [(['a'], [])] ['a', '.', 'f', 'l', 'k'] ['p']
      = (.destExists, [(['a'], [])], []) :=
  ⟨(claim_C9_dest_exists_refusal idPrims [(['a', '.', 'f', 'l', 'k'], [])]
      ['a'] ['p'] salt0 iv0).1 (by decide),
   (claim_C9_dest_exists_refusal idPrims [(['a'], [])]
      ['a', '.', 'f', 'l', 'k'] ['p'] salt0 iv0).2 (by decide) (by decide)⟩

/-- Claim C10: `decrypt_file` derives its output path by removing every
occurrence of the substring `".flk"` from the input path (Python
`str.replace`), not only the trailing extension; consequently, whenever
the input path has a further `".flk"` occurrence disjoint from the final
one, the output path differs from the input path minus its final
`".flk"` suffix. -/
theorem claim_C10_replace_all_occurrences (pr : Prims) (fs : FS) (path : Path)
    (pw : List Char) (data q : Bytes) :
    (endsWith4 path flk → fsExists fs (replaceFlk path) = false →
      fsLookup fs path = some data → decryptBuf pr pw data = .ok q →
      decrypt_file pr fs path pw =
        (.ok, fsWrite fs (replaceFlk path) q,
          [.read path, .write (replaceFlk path)])) ∧
    (∀ i, matchAt path i → i + 8 ≤ path.length → endsWith4 path flk →
      replaceFlk path ≠ path.take (path.length - 4)) := by
  constructor
  · exact fun hext hne hlook hdec =>
      decrypt_file_ok pr fs path pw data q hext hne hlook hdec
  · intro i hm hle hext heq
    have hm2 : matchAt path (path.length - 4) := by
      unfold matchAt
      rw [hext]
      decide
    have hlen8 := replaceFlk_length_two path i (path.length - 4) hm hm2 (by omega)
    have hlen := congrArg List.length heq
    rw [List.length_take] at hlen
    omega

/-- The doubled path of the C10 witness: `"a.flk.flk"`. -/
def c10path : Path := ['a', '.', 'f', 'l', 'k', '.', 'f', 'l', 'k']

/-- The container of the C10 witness. -/
def c10container : Bytes := encryptBuf idPrims ['p'] salt0 iv0 []

/-- Witness for C10: decrypting `"a.flk.flk"` writes to `"a"` (all
occurrences removed), which differs from `"a.flk"` (the path minus its
final suffix). -/
theorem claim_C10_replace_all_occurrences_witness :
    decrypt_file idPrims [(c10path, c10container)] c10path ['p'] =
      (.ok, fsWrite [(c10path, c10container)] ['a'] [],
        [.read c10path, .write ['a']]) ∧
    replaceFlk c10path ≠ c10path.take (c10path.length - 4) :=
  ⟨(claim_C10_replace_all_occurrences idPrims [(c10path, c10container)]
      c10path ['p'] c10container []).1 (by decide) (by decide) rfl (by rfl),
   (claim_C10_replace_all_occurrences idPrims [(c10path, c10container)]
      c10path ['p'] c10container []).2 1 (by decide) (by decide) (by decide)⟩

/-- Claim C3: starting from a filesystem holding only the file `p ↦ F`
(with `p` free of `".flk"` occurrences), `secure_file` succeeds, and
`restore_file` on its `p ++ ".flk.flc"` output with the same password
leaves the original bytes `F` at `p` with no `".flk"`-suffixed file on
disk — both when the user first deletes the original (restore then
actually rewrites it, as in the repository's integration test) and when
the original is left in place (decrypt then refuses to overwrite it and
`p` keeps its original bytes). -/
theorem claim_C3_pipeline_roundtrip (pr : Prims) (p : Path) (W : List Char)
    (F salt iv : Bytes)
    (hsalt : salt.length = 16) (hiv : iv.length = 16)
    (hsha : ∀ x, (pr.sha256 x).length = 32)
    (henc : ∀ k v x, (pr.cbc_encrypt k v x).length = x.length)
    (hdec : ∀ k v x, pr.cbc_decrypt k v (pr.cbc_encrypt k v x) = x)
    (hinf : ∀ l x, pr.inflate (pr.deflate l x) = some x)
    (hp : noFlk p) :
    (secure_file pr [(p, F)] p W 6 salt iv).1 = .ok ∧
    ((restore_file pr (fsRemove (secure_file pr [(p, F)] p W 6 salt iv).2.1 p)
        (p ++ flkflc) W).1 = .ok ∧
     fsLookup (restore_file pr
        (fsRemove (secure_file pr [(p, F)] p W 6 salt iv).2.1 p)
        (p ++ flkflc) W).2.1 p = some F ∧
     ∀ e ∈ (restore_file pr
        (fsRemove (secure_file pr [(p, F)] p W 6 salt iv).2.1 p)
        (p ++ flkflc) W).2.1, ¬ endsWith4 e.1 flk) ∧
    ((restore_file pr (secure_file pr [(p, F)] p W 6 salt iv).2.1
        (p ++ flkflc) W).1 = .ok ∧
     fsLookup (restore_file pr (secure_file pr [(p, F)] p W 6 salt iv).2.1
        (p ++ flkflc) W).2.1 p = some F ∧
     ∀ e ∈ (restore_file pr (secure_file pr [(p, F)] p W 6 salt iv).2.1
        (p ++ flkflc) W).2.1, ¬ endsWith4 e.1 flk) := by
  -- abbreviations and path facts
  set C := encryptBuf pr W salt iv F with hC
  set K := compressBuf pr 6 C with hK
  have hne2p : p ++ flk ≠ p := append_ne_left p (by decide)
  have hnep2 : p ≠ p ++ flk := hne2p.symm
  have hne3p : p ++ flkflc ≠ p := append_ne_left p (by decide)
  have hnep3 : p ≠ p ++ flkflc := hne3p.symm
  have hne23 : p ++ flk ≠ p ++ flkflc := append_ne_append_len (by decide)
  have hne32 : p ++ flkflc ≠ p ++ flk := hne23.symm
  have hassoc : (p ++ flk) ++ flc = p ++ flkflc := by
    simp [flkflc, List.append_assoc]
  have hCne : C ≠ [] := by
    intro h
    have := congrArg List.length h
    simp [hC, encryptBuf, hsalt] at this
  have hrep : replaceFlk (p ++ flk) = p := replaceFlk_append_flk p hp
  have hdecC : decryptBuf pr W C = .ok F :=
    decryptBuf_encryptBuf pr W salt iv F hsalt hiv hsha henc hdec
  have hdecomK : decompressBuf pr K = .ok C :=
    decompressBuf_compressBuf pr 6 C hsha hinf
  have hext2 : endsWith4 (p ++ flk) flk := endsWith4_append p (by decide)
  have hext3 : endsWith4 (p ++ flkflc) flc := endsWith4_flkflc_flc p
  -- step 1: secure_file
  have hfs1 : fsWrite [(p, F)] (p ++ flk) C = [(p ++ flk, C), (p, F)] := by
    rw [fsWrite, fsRemove_cons_ne hnep2, fsRemove_nil]
  have hsec : secure_file pr [(p, F)] p W 6 salt iv =
      (.ok, [(p ++ flkflc, K), (p, F)],
        [.read p, .write (p ++ flk)] ++
          [.read (p ++ flk), .write (p ++ flkflc)] ++ [.remove (p ++ flk)]) := by
    unfold secure_file
    rw [if_neg (not_not_intro (by omega))]
    rw [encrypt_file_ok pr [(p, F)] p W salt iv F
      (by simp [fsExists, fsLookup_cons_ne hnep2, fsLookup, flk_ne_nil])
      (fsLookup_cons_self p F [])]
    dsimp only
    rw [hfs1]
    rw [compress_file_ok pr [(p ++ flk, C), (p, F)] (p ++ flk) 6 C (by omega)
      (fsLookup_cons_self _ _ _) hCne]
    dsimp only
    rw [hassoc]
    rw [fsWrite, fsRemove_cons_ne hne23, fsRemove_cons_ne hnep3, fsRemove_nil]
    rw [fsRemove_cons_ne hne32, fsRemove_cons_self rfl, fsRemove_cons_ne hnep2,
      fsRemove_nil]
  rw [hsec]
  dsimp only
  refine ⟨rfl, ?_, ?_⟩
  -- scenario (b): the original is removed before restore
  · rw [fsRemove_cons_ne hne3p, fsRemove_cons_self rfl, fsRemove_nil]
    have hres : restore_file pr [(p ++ flkflc, K)] (p ++ flkflc) W =
        (.ok, [(p, F), (p ++ flkflc, K)],
          [.read (p ++ flkflc), .write (p ++ flk)] ++
            [.read (p ++ flk), .write p] ++ [.remove (p ++ flk)]) := by
      unfold restore_file
      rw [if_neg (not_not_intro hext3), take_sub4_flkflc]
      rw [decompress_file_ok pr [(p ++ flkflc, K)] (p ++ flkflc) K C hext3
        (fsLookup_cons_self _ _ _) hdecomK]
      dsimp only
      rw [withSuffixEmpty_flkflc]
      rw [fsWrite, fsRemove_cons_ne hne32, fsRemove_nil]
      rw [decrypt_file_ok pr [(p ++ flk, C), (p ++ flkflc, K)] (p ++ flk) W C F
        hext2
        (by simp [fsExists, hrep, fsLookup_cons_ne hne2p,
          fsLookup_cons_ne hne3p, fsLookup, flk_ne_nil, flkflc_ne_nil])
        (fsLookup_cons_self _ _ _) hdecC]
      dsimp only
      rw [hrep]
      rw [fsWrite, fsRemove_cons_ne hne2p, fsRemove_cons_ne hne3p, fsRemove_nil]
      rw [if_pos (by
        simp [fsExists, fsLookup_cons_ne hnep2, fsLookup_cons_self, flk_ne_nil])]
      rw [fsRemove_cons_ne hnep2, fsRemove_cons_self rfl, fsRemove_cons_ne hne32,
        fsRemove_nil]
    rw [hres]
    refine ⟨rfl, fsLookup_cons_self _ _ _, ?_⟩
    intro e he
    simp only [List.mem_cons, List.not_mem_nil, or_false] at he
    rcases he with rfl | rfl
    · exact noFlk_not_endsWith4 p hp
    · exact not_endsWith4_flkflc_flk p
  -- scenario (a): the original stays in place
  · have hres : restore_file pr [(p ++ flkflc, K), (p, F)] (p ++ flkflc) W =
        (.ok, [(p ++ flkflc, K), (p, F)],
          [.read (p ++ flkflc), .write (p ++ flk)] ++ [] ++
            [.remove (p ++ flk)]) := by
      unfold restore_file
      rw [if_neg (not_not_intro hext3), take_sub4_flkflc]
      rw [decompress_file_ok pr [(p ++ flkflc, K), (p, F)] (p ++ flkflc) K C
        hext3 (fsLookup_cons_self _ _ _) hdecomK]
      dsimp only
      rw [withSuffixEmpty_flkflc]
      rw [fsWrite, fsRemove_cons_ne hne32, fsRemove_cons_ne hnep2, fsRemove_nil]
      rw [decrypt_file_destExists pr
        [(p ++ flk, C), (p ++ flkflc, K), (p, F)] (p ++ flk) W hext2
        (by simp [fsExists, hrep, fsLookup_cons_ne hne2p,
          fsLookup_cons_ne hne3p, fsLookup_cons_self, flk_ne_nil, flkflc_ne_nil])]
      dsimp only
      rw [if_pos (by simp [fsExists, fsLookup_cons_self])]
      rw [fsRemove_cons_self rfl, fsRemove_cons_ne hne32, fsRemove_cons_ne hnep2,
        fsRemove_nil]
    rw [hres]
    refine ⟨rfl, ?_, ?_⟩
    · rw [fsLookup_cons_ne hne3p, fsLookup_cons_self]
    · intro e he
      simp only [List.mem_cons, List.not_mem_nil, or_false] at he
      rcases he with rfl | rfl
      · exact not_endsWith4_flkflc_flk p
      · exact noFlk_not_endsWith4 p hp

/-- Witness for C3 at path `"a"`, password `"w"`, contents `[5]`. -/
theorem claim_C3_pipeline_roundtrip_witness :
    (secure_file idPrims [(['a'], [byte 5])] ['a'] ['w'] 6 salt0 iv0).1 = .ok ∧
    ((restore_file idPrims
        (fsRemove (secure_file idPrims [(['a'], [byte 5])] ['a'] ['w'] 6 salt0 iv0).2.1 ['a'])
        (['a'] ++ flkflc) ['w']).1 = .ok ∧
     fsLookup (restore_file idPrims
        (fsRemove (secure_file idPrims [(['a'], [byte 5])] ['a'] ['w'] 6 salt0 iv0).2.1 ['a'])
        (['a'] ++ flkflc) ['w']).2.1 ['a'] = some [byte 5] ∧
     ∀ e ∈ (restore_file idPrims
        (fsRemove (secure_file idPrims [(['a'], [byte 5])] ['a'] ['w'] 6 salt0 iv0).2.1 ['a'])
        (['a'] ++ flkflc) ['w']).2.1, ¬ endsWith4 e.1 flk) ∧
    ((restore_file idPrims
        (secure_file idPrims [(['a'], [byte 5])] ['a'] ['w'] 6 salt0 iv0).2.1
        (['a'] ++ flkflc) ['w']).1 = .ok ∧
     fsLookup (restore_file idPrims
        (secure_file idPrims [(['a'], [byte 5])] ['a'] ['w'] 6 salt0 iv0).2.1
        (['a'] ++ flkflc) ['w']).2.1 ['a'] = some [byte 5] ∧
     ∀ e ∈ (restore_file idPrims
        (secure_file idPrims [(['a'], [byte 5])] ['a'] ['w'] 6 salt0 iv0).2.1
        (['a'] ++ flkflc) ['w']).2.1, ¬ endsWith4 e.1 flk) :=
  claim_C3_pipeline_roundtrip idPrims ['a'] ['w'] [byte 5] salt0 iv0
    (by simp [salt0]) (by simp [iv0]) (fun _ => by simp [idPrims])
    (fun _ _ _ => rfl) (fun _ _ _ => rfl) (fun _ _ => rfl) (by decide)

end FileLockVerify
